import Mathlib

/-! The fetch / filter / merge / sort pipeline of `main.go` of news.

A shallow embedding of `getPosts` and `getAllPosts` and the properties of the
aggregated post list.

* Library calls whose code is not part of the repository are inputs of the
  model: the feed retrieval (`ParseURLWithContext` of `gofeed`), `url.Parse`,
  the readings of `time.Now()` and the library sort `sort.Slice`.
* A `time.Time` is an instant on the time line, counted in nanoseconds.
* A nil pointer dereference is an explicit outcome (`panicked`).
* The runs of `getAllPosts` are those of the transition system `step`, which
  follows the fetchers, the collector and the caller one step at a time. The
  function `getAllPosts` is the result its doc comment describes, all posts
  sorted: what a run returns when every append comes before the sort
  (`run_sort_after_appends`). Other runs return something else.
-/

namespace News

/-! ## Time -/

/-- An instant of `time.Time`: nanoseconds on the absolute time line. -/
structure Time where
  nsec : Int
deriving DecidableEq

/-- The type `time.Duration`: an int64 count of nanoseconds, held as the
integer it stands for. -/
abbrev Duration := Int

/-- The int64 that an int64 operation yields when its exact result is `x`:
the result wraps around. -/
def wrapInt64 (x : Int) : Int :=
  (x + 9223372036854775808) % 18446744073709551616 - 9223372036854775808

/-- The expression `-d` on a `time.Duration`: the least int64 is its own
negation. -/
def negDuration (d : Duration) : Duration := wrapInt64 (-d)

/-- The constant `time.Second`. -/
def Second : Duration := 1000000000

/-- The constant `time.Minute`. -/
def Minute : Duration := 60 * Second

/-- The constant `time.Hour`. -/
def Hour : Duration := 60 * Minute

/-- The method `t.Add(d)`: the instant moved by `d`. The instants of a
`time.Time` reach far beyond what an int64 count of nanoseconds can move
them, so nothing wraps here. -/
def Time.Add (t : Time) (d : Duration) : Time := ⟨t.nsec + d⟩

/-- The method `t.After(u)`: the instant `t` is strictly later than `u`. -/
def Time.After (t u : Time) : Bool := decide (u.nsec < t.nsec)

/-- The method `t.Before(u)`: the instant `t` is strictly earlier than `u`. -/
def Time.Before (t u : Time) : Bool := decide (t.nsec < u.nsec)

/-- Show up to 60 days of posts (`relevantDuration = 60 * 24 * time.Hour`). -/
def relevantDuration : Duration := 60 * 24 * Hour

/-! ## Data model -/

/-- The struct `Post` of `main.go`. -/
structure Post where
  Link : String
  Title : String
  Published : Time
  Host : String
deriving DecidableEq

/-- The fields of `gofeed.Item` read by `getPosts`. The two timestamps are
pointers in the source; `none` is the nil pointer. -/
structure Item where
  Link : String
  Title : String
  PublishedParsed : Option Time
  UpdatedParsed : Option Time
deriving DecidableEq

/-- The field of `gofeed.Feed` read by `getPosts`. -/
structure Feed where
  Items : List Item
deriving DecidableEq

/-- The field of `url.URL` read by `getPosts`. -/
structure URL where
  Host : String
deriving DecidableEq

/-- Everything `getPosts` and `getAllPosts` obtain from outside the program.

* `ParseURLWithContext k feedURL`: what the retrieval started by the `k`-th
  fetcher goroutine for `feedURL` yields: a feed, or an error (network
  failure, malformed document, deadline exceeded).
* `Parse link`: the answer of `url.Parse`; on an error the returned pointer
  is nil, so an error carries no `URL`.
* `Now k i`: the reading of `time.Now()` taken by the `k`-th fetcher while it
  handles the `i`-th item of its feed.
* `arrival`: the order in which the collector receives from the fetchers:
  each number names the fetcher whose pending send is received next. -/
structure World where
  ParseURLWithContext : Nat → String → Except String Feed
  Parse : String → Except String URL
  Now : Nat → Nat → Time
  arrival : List Nat

/-! ## getPosts -/

/-- What one pass through the body of the `for _, item := range feed.Items`
loop does. -/
inductive ItemResult where
  /-- The `continue` of the recency filter. -/
  | skipped
  /-- The statement `posts <- post`. -/
  | sent (post : Post)
  /-- A nil pointer is dereferenced: the goroutine panics. -/
  | panicked
deriving DecidableEq

/-- Lines 149-152: `published := item.PublishedParsed`, replaced by
`item.UpdatedParsed` when it is nil. -/
def resolvePublished (item : Item) : Option Time :=
  match item.PublishedParsed with
  | some t => some t
  | none => item.UpdatedParsed

/-- The body of the loop of `getPosts` (lines 149-166) for one item, `now`
being the reading of `time.Now()` taken there. -/
def processItem (urlParse : String → Except String URL) (rd : Duration) (now : Time)
    (item : Item) : ItemResult :=
  match resolvePublished item with
  | none => ItemResult.panicked
  | some published =>
    if published.Before (now.Add (negDuration rd)) then ItemResult.skipped
    else
      match urlParse item.Link with
      | Except.error _ => ItemResult.panicked
      | Except.ok parsedLink =>
        ItemResult.sent
          { Link := item.Link, Title := item.Title, Published := published,
            Host := parsedLink.Host }

/-- What a fetcher goroutine has done when it stops: the posts it has sent on
the channel, in order, and whether it stopped by a panic. -/
structure Emission where
  sent : List Post
  panicked : Bool
deriving DecidableEq

/-- The loop `for _, item := range feed.Items` of `getPosts`; `now i` is the
clock reading at the `i`-th remaining item. A panic ends the loop. -/
def processItems (urlParse : String → Except String URL) (rd : Duration) :
    (Nat → Time) → List Item → Emission
  | _, [] => { sent := [], panicked := false }
  | now, item :: rest =>
    match processItem urlParse rd (now 0) item with
    | ItemResult.skipped => processItems urlParse rd (fun i => now (i + 1)) rest
    | ItemResult.sent post =>
      let r := processItems urlParse rd (fun i => now (i + 1)) rest
      { sent := post :: r.sent, panicked := r.panicked }
    | ItemResult.panicked => { sent := [], panicked := true }

/-- The function `getPosts`, run by the `k`-th fetcher goroutine: a failed
retrieval is logged and nothing is sent. -/
def getPosts (w : World) (rd : Duration) (k : Nat) (feedURL : String) : Emission :=
  match w.ParseURLWithContext k feedURL with
  | Except.error _ => { sent := [], panicked := false }
  | Except.ok feed => processItems w.Parse rd (w.Now k) feed.Items

/-! ## sort.Slice -/

/-- The requirement of `sort.Slice` on its `less` argument: a transitive
ordering (if `less a b` and `less b c` then `less a c`; if neither `less a b`
nor `less b c` then not `less a c`), no element being less than itself. -/
structure IsLess {α : Type} (less : α → α → Bool) : Prop where
  irrefl : ∀ a, less a a = false
  trans : ∀ a b c, less a b = true → less b c = true → less a c = true
  negTrans : ∀ a b c, less a b = false → less b c = false → less a c = false

/-- The contract of `sort.Slice`: the slice is rearranged in place, and
afterwards no element is `less` than an element standing before it. Which of
the orders allowed by that is produced is left open: the sort is not stable. -/
structure SliceSorter where
  sort : {α : Type} → (α → α → Bool) → List α → List α
  perm : ∀ {α : Type} (less : α → α → Bool) (l : List α), (sort less l).Perm l
  sorted : ∀ {α : Type} (less : α → α → Bool) (l : List α), IsLess less →
    (sort less l).Pairwise (fun a b => less b a = false)

/-- Insertion sort, one way of meeting the contract of `sort.Slice`: every
element is put in front of the first element that is not `less` than it. -/
def insertionSorter : SliceSorter where
  sort := fun less l => l.insertionSort (fun a b => less b a = false)
  perm := fun less l => List.perm_insertionSort (fun a b => less b a = false) l
  sorted := fun less l h =>
    haveI : IsTotal _ (fun a b => less b a = false) :=
      ⟨fun a b => by
        cases hba : less b a
        · exact Or.inl rfl
        · cases hab : less a b
          · exact Or.inr rfl
          · have hbb := h.trans b a b hba hab
            rw [h.irrefl] at hbb
            exact absurd hbb (by decide)⟩
    haveI : IsTrans _ (fun a b => less b a = false) :=
      ⟨fun a b c hab hbc => h.negTrans c b a hbc hab⟩
    List.sorted_insertionSort (fun a b => less b a = false) l

/-! ## getAllPosts -/

/-- The comparison passed to `sort.Slice`:
`posts[i].Published.After(posts[j].Published)`. -/
def lessPost (pi pj : Post) : Bool := pi.Published.After pj.Published

/-- Lines 131-134: sort items chronologically descending. -/
def sortPosts (S : SliceSorter) (posts : List Post) : List Post :=
  S.sort lessPost posts

/-- The launch loop `for _, feed := range feeds { go getPosts(...) }`: the
emission of every fetcher, the first one being fetcher number `k`. -/
def fanOut (w : World) (rd : Duration) : Nat → List String → List Emission
  | _, [] => []
  | k, feedURL :: rest => getPosts w rd k feedURL :: fanOut w rd (k + 1) rest

/-- The collector `for post := range postChan { posts = append(posts, post) }`
over a run in which every send is received and appended: `pending` holds what
each fetcher has still to send; `order` names the fetcher served next (a
number that names no fetcher with a pending send is passed over), and sends
left when `order` is used up are received fetcher by fetcher. -/
def collect : List Nat → List (List Post) → List Post
  | [], pending => pending.flatten
  | k :: order, pending =>
    match pending[k]? with
    | some (post :: rest) => post :: collect order (pending.set k rest)
    | _ => collect order pending

/-- The result the doc comment of `getAllPosts` describes, all posts from all
feeds, sorted: what the code returns in the runs in which the collector has
appended every post sent before the sort starts (`run_sort_after_appends`);
the runs of the code themselves are those of `step`. A fetcher that panics
brings the program down: `none`. -/
def getAllPosts (S : SliceSorter) (w : World) (rd : Duration) (feeds : List String) :
    Option (List Post) :=
  let emissions := fanOut w rd 0 feeds
  if emissions.any (fun e => e.panicked) then none
  else some (sortPosts S (collect w.arrival (emissions.map (fun e => e.sent))))

/-! ## The goroutines of getAllPosts -/

/-- Where a fetcher goroutine stands. -/
inductive Fetcher where
  /-- Inside `getPosts`, with the posts it has still to send; `panics` tells
  whether a panic follows the last of them. -/
  | running (toSend : List Post) (panics : Bool)
  /-- Panicking: the deferred `wg.Done()` has run and the runtime is about to
  end the program. -/
  | dying
  /-- Returned from `getPosts`; the deferred `wg.Done()` has run. -/
  | done
deriving DecidableEq

/-- Where the collector goroutine `for post := range postChan` stands. -/
inductive Collector where
  /-- Waiting to receive from `postChan`. -/
  | receiving
  /-- It has received `post` and is about to run `posts = append(posts, post)`. -/
  | appending (post : Post)
  /-- The loop has ended on the closed channel. -/
  | finished
deriving DecidableEq

/-- Where the goroutine that called `getAllPosts` stands. -/
inductive Caller where
  /-- Inside `wg.Wait()`. -/
  | waiting
  /-- Past `wg.Wait()`, about to run `close(postChan)`. -/
  | closing
  /-- About to run `sort.Slice(posts, ...)`. -/
  | sorting
  /-- Past `sort.Slice`, about to run `return posts`. -/
  | returning
  /-- It has returned `result`. -/
  | returned (result : List Post)
deriving DecidableEq

/-- The state of a run of `getAllPosts` once all goroutines are started:
`wg` is the counter of the WaitGroup, `posts` the variable `posts`, `closed`
tells whether `postChan` is closed. -/
structure Sys where
  fetchers : List Fetcher
  wg : Nat
  posts : List Post
  closed : Bool
  collector : Collector
  caller : Caller
  crashed : Bool
deriving DecidableEq

/-- The steps of the goroutines. -/
inductive Event where
  /-- The send `posts <- post` of fetcher `k` meets the receive of the
  collector (the channel is unbuffered). -/
  | send (k : Nat)
  /-- Fetcher `k` leaves `getPosts`, by return or by panic: `wg.Done()`. -/
  | leave (k : Nat)
  /-- The panic of fetcher `k` ends the program. -/
  | crash (k : Nat)
  /-- The collector runs `posts = append(posts, post)`. -/
  | append
  /-- The collector finds the channel closed. -/
  | stop
  /-- The call `wg.Wait()` returns. -/
  | wake
  /-- The caller runs `close(postChan)`. -/
  | close
  /-- The caller runs `sort.Slice(posts, ...)`: the elements that the slice
  `posts` holds at this moment are sorted in place. -/
  | sort
  /-- The caller runs `return posts`: the variable `posts` is read again. -/
  | ret
deriving DecidableEq

/-- The state after `wg.Add(len(feeds))` and the `go` statements, the `k`-th
fetcher being about to do what `emissions[k]` says: nothing is sent before
that state, as a send waits for the collector to receive. -/
def start (emissions : List Emission) : Sys :=
  { fetchers := emissions.map (fun e => Fetcher.running e.sent e.panicked)
    wg := emissions.length
    posts := []
    closed := false
    collector := Collector.receiving
    caller := Caller.waiting
    crashed := false }

/-- One step of one goroutine; `none` when the step cannot be taken in `s`. -/
def step (S : SliceSorter) (s : Sys) (e : Event) : Option Sys :=
  if s.crashed then none
  else
    match e with
    | Event.send k =>
      match s.fetchers[k]?, s.collector, s.closed with
      | some (Fetcher.running (post :: rest) panics), Collector.receiving, false =>
        some { s with fetchers := s.fetchers.set k (Fetcher.running rest panics)
                      collector := Collector.appending post }
      | _, _, _ => none
    | Event.leave k =>
      match s.fetchers[k]? with
      | some (Fetcher.running [] panics) =>
        some { s with fetchers := s.fetchers.set k (if panics then Fetcher.dying else Fetcher.done)
                      wg := s.wg - 1 }
      | _ => none
    | Event.crash k =>
      match s.fetchers[k]? with
      | some Fetcher.dying => some { s with crashed := true }
      | _ => none
    | Event.append =>
      match s.collector with
      | Collector.appending post =>
        some { s with posts := s.posts ++ [post], collector := Collector.receiving }
      | _ => none
    | Event.stop =>
      match s.collector, s.closed with
      | Collector.receiving, true => some { s with collector := Collector.finished }
      | _, _ => none
    | Event.wake =>
      match s.caller with
      | Caller.waiting => if s.wg = 0 then some { s with caller := Caller.closing } else none
      | _ => none
    | Event.close =>
      match s.caller with
      | Caller.closing => some { s with closed := true, caller := Caller.sorting }
      | _ => none
    | Event.sort =>
      match s.caller with
      | Caller.sorting => some { s with posts := sortPosts S s.posts, caller := Caller.returning }
      | _ => none
    | Event.ret =>
      match s.caller with
      | Caller.returning => some { s with caller := Caller.returned s.posts }
      | _ => none

/-- The state reached from `s` by the steps `events`, taken in this order. -/
def run (S : SliceSorter) : Sys → List Event → Option Sys
  | s, [] => some s
  | s, e :: events =>
    match step S s e with
    | some s' => run S s' events
    | none => none

/-- The posts a fetcher has still to send. -/
def Fetcher.toSend : Fetcher → List Post
  | Fetcher.running posts _ => posts
  | _ => []

/-- Whether a fetcher is still inside `getPosts`. -/
def Fetcher.isRunning : Fetcher → Bool
  | Fetcher.running _ _ => true
  | _ => false

/-- The post the collector has received and not yet appended, if any. -/
def Collector.held : Collector → List Post
  | Collector.appending post => [post]
  | _ => []

/-- The invariant of the runs that start from fetchers about to send
`pending`: the counter of the WaitGroup is the number of fetchers still
running and is zero once `wg.Wait()` has returned, and, as long as the caller
has not sorted, the posts appended or held by the collector are the beginning
of a collection order of `pending` that goes on with the posts still to be
sent. -/
def Coherent (pending : List (List Post)) (s : Sys) : Prop :=
  s.wg = s.fetchers.countP Fetcher.isRunning ∧
    (s.caller ≠ Caller.waiting → s.wg = 0) ∧
    ((s.caller = Caller.waiting ∨ s.caller = Caller.closing ∨ s.caller = Caller.sorting) →
      ∃ order, ∀ later, collect (order ++ later) pending =
        (s.posts ++ s.collector.held) ++ collect later (s.fetchers.map Fetcher.toSend))

/-- The invariant of the runs in which no fetcher has anything to send:
nothing is appended, nothing is held, and nothing but the empty list is
returned. -/
def Quiet (s : Sys) : Prop :=
  s.posts = [] ∧ s.collector.held = [] ∧ (∀ f ∈ s.fetchers, f.toSend = []) ∧
    ∀ result, s.caller = Caller.returned result → result = []

/-! ## The aggregate in the words of the specification -/

/-- The resolved timestamp in the specification's words: the publication
timestamp if present, else the update timestamp. -/
def specPublished (item : Item) : Option Time :=
  if item.PublishedParsed.isSome then item.PublishedParsed else item.UpdatedParsed

/-- The cutoff: the current time minus the relevant duration. -/
def cutoff (now : Time) (rd : Duration) : Time := ⟨now.nsec - rd⟩

/-- The post the specification builds from the entry at position `i`: none
unless the entry has a timestamp, that timestamp is not before the cutoff and
the link parses; the host is the authority of the parsed link. -/
def specPost (urlParse : String → Except String URL) (rd : Duration) (now : Nat → Time)
    (entry : Nat × Item) : Option Post :=
  match specPublished entry.2, urlParse entry.2.Link with
  | some t, Except.ok u =>
    if (cutoff (now entry.1) rd).nsec ≤ t.nsec then
      some { Link := entry.2.Link, Title := entry.2.Title, Published := t, Host := u.Host }
    else none
  | _, _ => none

/-- The posts the specification expects from the endpoint at position
`entry.1`: none from a failed endpoint, else one per surviving entry. -/
def specFetch (w : World) (rd : Duration) (endpoint : Nat × String) : List Post :=
  match w.ParseURLWithContext endpoint.1 endpoint.2 with
  | Except.error _ => []
  | Except.ok feed => feed.Items.enum.filterMap (specPost w.Parse rd (w.Now endpoint.1))

/-- The multiset of posts the specification expects in the aggregate, as a
list: endpoint after endpoint, nothing merged, nothing dropped. -/
def specAggregate (w : World) (rd : Duration) (feeds : List String) : List Post :=
  (feeds.enum.map (specFetch w rd)).flatten

/-- A well-formed entry has a publication or an update timestamp and a link
that parses as a URL. -/
def WellFormed (urlParse : String → Except String URL) (item : Item) : Prop :=
  (item.PublishedParsed.isSome = true ∨ item.UpdatedParsed.isSome = true) ∧
    ∃ u, urlParse item.Link = Except.ok u

/-- The clock readings of a fetcher whose feed lacks the entry at position
`n`: the reading taken at that entry is not taken. -/
def skipReading (n : Nat) (now : Nat → Time) : Nat → Time :=
  fun i => if i < n then now i else now (i + 1)

/-- The world in which the feed retrieved by fetcher `k` for `feedURL` lacks
its entry at position `n`, everything else being the same. -/
def World.withoutEntry (w : World) (k : Nat) (feedURL : String) (n : Nat) : World :=
  { ParseURLWithContext := fun j url =>
      if j = k ∧ url = feedURL then
        match w.ParseURLWithContext j url with
        | Except.ok feed => Except.ok { Items := feed.Items.eraseIdx n }
        | Except.error e => Except.error e
      else w.ParseURLWithContext j url
    Parse := w.Parse
    Now := fun j => if j = k then skipReading n (w.Now j) else w.Now j
    arrival := w.arrival }

/-! ## Sample inputs -/

/-- The instant `days` days and `hours` hours after the origin of the time
line. -/
def instant (days hours : Int) : Time := ⟨days * (24 * Hour) + hours * Hour⟩

/-- The answers of `url.Parse` on the links of the sample inputs; the link
`://bad` has no scheme and is refused. -/
def sampleParse (link : String) : Except String URL :=
  if link = "https://example.com/a/b" then Except.ok { Host := "example.com" }
  else if link = "https://a.test/1" then Except.ok { Host := "a.test" }
  else if link = "https://b.test/2" then Except.ok { Host := "b.test" }
  else if link = "https://b.test/3" then Except.ok { Host := "b.test" }
  else Except.error "missing protocol scheme"

/-- A world in which the `k`-th fetcher obtains the `k`-th of `responses`
(a deadline error beyond them), every clock reading is day 100, 00:00, and
the collector serves the fetchers in the order `arrival`. -/
def sampleWorld (responses : List (Except String Feed)) (arrival : List Nat) : World :=
  { ParseURLWithContext := fun k _ =>
      (responses[k]?).getD (Except.error "context deadline exceeded")
    Parse := sampleParse
    Now := fun _ _ => instant 100 0
    arrival := arrival }

/-- An entry of endpoint A, published at the current reading of the clock. -/
def entryA : Item :=
  { Link := "https://a.test/1", Title := "A1",
    PublishedParsed := some (instant 100 0), UpdatedParsed := none }

/-- An entry of endpoint B, published one hour before `entryA`. -/
def entryB : Item :=
  { Link := "https://b.test/2", Title := "B2",
    PublishedParsed := some (instant 99 23), UpdatedParsed := none }

/-- An entry of endpoint B without a publication timestamp, updated exactly 60
days before the clock reading. -/
def entryB3 : Item :=
  { Link := "https://b.test/3", Title := "B3",
    PublishedParsed := none, UpdatedParsed := some (instant 40 0) }

/-- An entry published 61 days before the clock reading. -/
def entryOld : Item :=
  { Link := "https://a.test/1", Title := "old",
    PublishedParsed := some (instant 39 0), UpdatedParsed := some (instant 100 0) }

/-- An entry with neither a publication nor an update timestamp. -/
def entryUndated : Item :=
  { Link := "https://b.test/3", Title := "undated",
    PublishedParsed := none, UpdatedParsed := none }

/-- A recent entry whose link `url.Parse` refuses. -/
def entryBadLink : Item :=
  { Link := "://bad", Title := "bad link",
    PublishedParsed := some (instant 100 0), UpdatedParsed := none }

/-- An entry with the link of the specification's example. -/
def entryExample : Item :=
  { Link := "https://example.com/a/b", Title := "example",
    PublishedParsed := some (instant 100 0), UpdatedParsed := none }

/-- The post built from `entryA`. -/
def postA : Post :=
  { Link := "https://a.test/1", Title := "A1", Published := instant 100 0, Host := "a.test" }

/-- The post built from `entryB`. -/
def postB : Post :=
  { Link := "https://b.test/2", Title := "B2", Published := instant 99 23, Host := "b.test" }

/-- The post built from `entryB3`. -/
def postB3 : Post :=
  { Link := "https://b.test/3", Title := "B3", Published := instant 40 0, Host := "b.test" }

/-- The post built from `entryExample`. -/
def postExample : Post :=
  { Link := "https://example.com/a/b", Title := "example", Published := instant 100 0,
    Host := "example.com" }

/-! ## Lemmas: the sorting step -/

theorem lessPost_isLess : IsLess lessPost where
  irrefl := by intro a; simp [lessPost, Time.After]
  trans := by
    intro a b c hab hbc
    simp only [lessPost, Time.After, decide_eq_true_eq] at hab hbc ⊢
    omega
  negTrans := by
    intro a b c hab hbc
    simp only [lessPost, Time.After, decide_eq_false_iff_not, not_lt] at hab hbc ⊢
    omega

theorem sortPosts_perm (S : SliceSorter) (posts : List Post) :
    (sortPosts S posts).Perm posts :=
  S.perm lessPost posts

theorem sortPosts_pairwise (S : SliceSorter) (posts : List Post) :
    (sortPosts S posts).Pairwise (fun p q => q.Published.After p.Published = false) :=
  S.sorted lessPost posts lessPost_isLess

theorem pairwise_adjacent {α : Type} {R : α → α → Prop} :
    ∀ (l : List α), l.Pairwise R →
      ∀ (i : Nat) (a b : α), l[i]? = some a → l[i + 1]? = some b → R a b
  | [], _, i, a, b, ha, _ => by simp at ha
  | x :: l, h, 0, a, b, ha, hb => by
    rw [List.pairwise_cons] at h
    simp only [List.getElem?_cons_zero, Option.some.injEq] at ha
    simp only [List.getElem?_cons_succ] at hb
    subst ha
    exact h.1 b (List.getElem?_mem hb)
  | x :: l, h, i + 1, a, b, ha, hb => by
    rw [List.pairwise_cons] at h
    simp only [List.getElem?_cons_succ] at ha hb
    exact pairwise_adjacent l h.2 i a b ha hb

theorem eq_of_perm_of_map_eq {α β : Type} (f : α → β) :
    ∀ (l₁ l₂ : List α), l₁.Perm l₂ → l₁.map f = l₂.map f → (l₁.map f).Nodup → l₁ = l₂
  | [], l₂, hp, _, _ => (List.Perm.nil_eq hp)
  | a :: t₁, [], hp, _, _ => absurd hp.symm.nil_eq (by simp)
  | a :: t₁, b :: t₂, hp, hm, hn => by
    simp only [List.map_cons, List.cons.injEq] at hm
    have hb : b ∈ a :: t₁ := hp.mem_iff.2 (List.mem_cons_self b t₂)
    have hab : a = b := by
      rcases List.mem_cons.1 hb with h | h
      · exact h.symm
      · exfalso
        rw [List.map_cons, List.nodup_cons] at hn
        exact hn.1 (hm.1 ▸ List.mem_map_of_mem f h)
    subst hab
    rw [List.map_cons, List.nodup_cons] at hn
    rw [eq_of_perm_of_map_eq f t₁ t₂ ((List.perm_cons a).1 hp) hm.2 hn.2]

theorem sorted_published_unique (l₁ l₂ : List Post) (hp : l₁.Perm l₂)
    (h₁ : l₁.Pairwise (fun p q => q.Published.After p.Published = false))
    (h₂ : l₂.Pairwise (fun p q => q.Published.After p.Published = false)) :
    l₁.map (fun p => p.Published) = l₂.map (fun p => p.Published) := by
  haveI : IsAntisymm Time (fun t u => u.nsec ≤ t.nsec) :=
    ⟨fun t u h₁ h₂ => by
      cases t; cases u
      simp only [Time.mk.injEq] at *
      omega⟩
  have conv : ∀ l : List Post,
      l.Pairwise (fun p q => q.Published.After p.Published = false) →
      (l.map (fun p => p.Published)).Sorted (fun t u => u.nsec ≤ t.nsec) := by
    intro l hl
    unfold List.Sorted
    rw [List.pairwise_map]
    refine hl.imp ?_
    intro p q hpq
    simpa [Time.After] using hpq
  exact List.eq_of_perm_of_sorted (hp.map _) (conv l₁ h₁) (conv l₂ h₂)

/-! ## Lemmas: the loop of getPosts -/

theorem processItems_cons (urlParse : String → Except String URL) (rd : Duration)
    (now : Nat → Time) (item : Item) (rest : List Item) :
    processItems urlParse rd now (item :: rest) =
      match processItem urlParse rd (now 0) item with
      | ItemResult.skipped => processItems urlParse rd (fun i => now (i + 1)) rest
      | ItemResult.sent post =>
        { sent := post :: (processItems urlParse rd (fun i => now (i + 1)) rest).sent,
          panicked := (processItems urlParse rd (fun i => now (i + 1)) rest).panicked }
      | ItemResult.panicked => { sent := [], panicked := true } := by
  rw [processItems]

theorem processItems_append (urlParse : String → Except String URL) (rd : Duration) :
    ∀ (pre suf : List Item) (now : Nat → Time),
      processItems urlParse rd now (pre ++ suf) =
        if (processItems urlParse rd now pre).panicked = true then
          processItems urlParse rd now pre
        else
          { sent := (processItems urlParse rd now pre).sent ++
              (processItems urlParse rd (fun i => now (i + pre.length)) suf).sent,
            panicked := (processItems urlParse rd (fun i => now (i + pre.length)) suf).panicked }
  | [], suf, now => by
    simp [processItems]
  | item :: pre, suf, now => by
    have ih := processItems_append urlParse rd pre suf (fun i => now (i + 1))
    have hshift : (fun i => now (i + (item :: pre).length)) =
        (fun i => (fun j => now (j + 1)) (i + pre.length)) := by
      funext i
      simp only [List.length_cons]
      rfl
    rw [List.cons_append, processItems_cons, processItems_cons, hshift, ih]
    cases processItem urlParse rd (now 0) item with
    | skipped => rfl
    | sent post =>
      by_cases hp : (processItems urlParse rd (fun i => now (i + 1)) pre).panicked = true
      · simp [hp]
      · simp [hp]
    | panicked => rfl

theorem processItems_eraseIdx (urlParse : String → Except String URL) (rd : Duration) :
    ∀ (items : List Item) (n : Nat) (now : Nat → Time) (item : Item),
      items[n]? = some item →
      processItem urlParse rd (now n) item = ItemResult.skipped →
      processItems urlParse rd now items =
        processItems urlParse rd (skipReading n now) (items.eraseIdx n)
  | [], n, now, item, h, _ => by simp at h
  | x :: rest, 0, now, item, h, hs => by
    simp only [List.getElem?_cons_zero, Option.some.injEq] at h
    subst h
    rw [processItems_cons, hs]
    simp only [List.eraseIdx_cons_zero]
    congr 1
  | x :: rest, n + 1, now, item, h, hs => by
    simp only [List.getElem?_cons_succ] at h
    have ih := processItems_eraseIdx urlParse rd rest n (fun i => now (i + 1)) item h hs
    have hclock : (fun i => skipReading (n + 1) now (i + 1)) =
        skipReading n (fun i => now (i + 1)) := by
      funext i
      simp [skipReading]
    have h0 : skipReading (n + 1) now 0 = now 0 := by simp [skipReading]
    rw [List.eraseIdx_cons_succ, processItems_cons, processItems_cons, h0, hclock, ih]

theorem processItems_mem_sent (urlParse : String → Except String URL) (rd : Duration) :
    ∀ (items : List Item) (now : Nat → Time) (post : Post),
      post ∈ (processItems urlParse rd now items).sent →
      ∃ n item, items[n]? = some item ∧
        processItem urlParse rd (now n) item = ItemResult.sent post
  | [], now, post, h => by simp [processItems] at h
  | item :: rest, now, post, h => by
    rw [processItems_cons] at h
    cases hitem : processItem urlParse rd (now 0) item with
    | skipped =>
      rw [hitem] at h
      obtain ⟨n, x, hx, hs⟩ := processItems_mem_sent urlParse rd rest _ post h
      exact ⟨n + 1, x, by simpa using hx, hs⟩
    | sent post₀ =>
      rw [hitem] at h
      rcases List.mem_cons.1 h with h | h
      · subst h
        exact ⟨0, item, List.getElem?_cons_zero, hitem⟩
      · obtain ⟨n, x, hx, hs⟩ := processItems_mem_sent urlParse rd rest _ post h
        exact ⟨n + 1, x, by simpa using hx, hs⟩
    | panicked =>
      rw [hitem] at h
      simp at h

theorem processItem_sent (urlParse : String → Except String URL) (rd : Duration) (now : Time)
    (item : Item) (post : Post) (h : processItem urlParse rd now item = ItemResult.sent post) :
    resolvePublished item = some post.Published ∧
      post.Published.Before (now.Add (negDuration rd)) = false ∧
      (∃ u, urlParse item.Link = Except.ok u ∧ post.Host = u.Host) ∧
      post.Link = item.Link ∧ post.Title = item.Title := by
  unfold processItem at h
  cases hres : resolvePublished item with
  | none => simp [hres] at h
  | some t =>
    simp only [hres] at h
    by_cases hb : t.Before (now.Add (negDuration rd)) = true
    · simp [hb] at h
    · simp only [hb, Bool.false_eq_true, if_false] at h
      cases hu : urlParse item.Link with
      | error e => simp [hu] at h
      | ok u =>
        simp only [hu, ItemResult.sent.injEq] at h
        subst h
        exact ⟨rfl, by simpa using hb, ⟨u, rfl, rfl⟩, rfl, rfl⟩

theorem specPublished_eq (item : Item) : specPublished item = resolvePublished item := by
  unfold specPublished resolvePublished
  cases item.PublishedParsed <;> simp

theorem negDuration_eq (rd : Int) (hmin : -9223372036854775808 < rd)
    (hmax : rd < 9223372036854775808) : negDuration rd = -rd := by
  unfold negDuration wrapInt64
  have h : (-rd + 9223372036854775808) % 18446744073709551616 = -rd + 9223372036854775808 :=
    Int.emod_eq_of_lt (by linarith) (by linarith)
  rw [h]
  ring

theorem not_before_iff (t now : Time) (rd : Duration) (hneg : negDuration rd = -rd) :
    t.Before (now.Add (negDuration rd)) = false ↔ (cutoff now rd).nsec ≤ t.nsec := by
  rw [hneg]
  simp only [Time.Before, Time.Add, cutoff, decide_eq_false_iff_not, not_lt]
  constructor <;> intro h <;> omega

theorem processItem_wellFormed (urlParse : String → Except String URL) (rd : Duration)
    (hneg : negDuration rd = -rd)
    (now : Nat → Time) (i : Nat) (item : Item) (h : WellFormed urlParse item) :
    processItem urlParse rd (now i) item =
      match specPost urlParse rd now (i, item) with
      | some post => ItemResult.sent post
      | none => ItemResult.skipped := by
  obtain ⟨hts, u, hu⟩ := h
  have hres : ∃ t, resolvePublished item = some t := by
    unfold resolvePublished
    cases hp : item.PublishedParsed with
    | some t => exact ⟨t, rfl⟩
    | none =>
      cases hq : item.UpdatedParsed with
      | some t => exact ⟨t, rfl⟩
      | none => simp [hp, hq] at hts
  obtain ⟨t, ht⟩ := hres
  unfold processItem specPost
  simp only [specPublished_eq, ht, hu]
  by_cases hb : t.Before ((now i).Add (negDuration rd)) = true
  · have hc : ¬ (cutoff (now i) rd).nsec ≤ t.nsec := by
      rw [← not_before_iff _ _ _ hneg]; simp [hb]
    simp [hb, hc]
  · have hb' : t.Before ((now i).Add (negDuration rd)) = false := by simpa using hb
    have hc : (cutoff (now i) rd).nsec ≤ t.nsec := (not_before_iff _ _ _ hneg).1 hb'
    simp [hb', hc]

theorem processItems_wellFormed (urlParse : String → Except String URL) (rd : Duration)
    (hneg : negDuration rd = -rd) (now : Nat → Time) :
    ∀ (items : List Item) (k : Nat), (∀ item ∈ items, WellFormed urlParse item) →
      processItems urlParse rd (fun i => now (i + k)) items =
        { sent := (items.enumFrom k).filterMap (specPost urlParse rd now), panicked := false }
  | [], k, _ => by simp [processItems]
  | item :: rest, k, h => by
    have hclock : (fun i => (fun j => now (j + k)) (i + 1)) = (fun i => now (i + (k + 1))) := by
      funext i
      show now (i + 1 + k) = now (i + (k + 1))
      congr 1
      omega
    have ih := processItems_wellFormed urlParse rd hneg now rest (k + 1)
      (fun x hx => h x (List.mem_cons_of_mem _ hx))
    have h0 := processItem_wellFormed urlParse rd hneg now k item
      (h item (List.mem_cons_self _ _))
    rw [processItems_cons, hclock, ih]
    show (match processItem urlParse rd (now (0 + k)) item with
      | ItemResult.skipped => _
      | ItemResult.sent post => _
      | ItemResult.panicked => _) = _
    rw [Nat.zero_add, h0, List.enumFrom_cons, List.filterMap_cons]
    cases specPost urlParse rd now (k, item) <;> rfl

theorem getPosts_wellFormed (w : World) (rd : Duration) (hneg : negDuration rd = -rd)
    (k : Nat) (feedURL : String)
    (hwf : ∀ feed, w.ParseURLWithContext k feedURL = Except.ok feed →
      ∀ item ∈ feed.Items, WellFormed w.Parse item) :
    getPosts w rd k feedURL = { sent := specFetch w rd (k, feedURL), panicked := false } := by
  unfold getPosts specFetch
  cases hfeed : w.ParseURLWithContext k feedURL with
  | error e => rfl
  | ok feed =>
    have h := processItems_wellFormed w.Parse rd hneg (w.Now k) feed.Items 0 (hwf feed hfeed)
    simpa [List.enum] using h

theorem getPosts_withoutEntry_other (w : World) (rd : Duration) (k : Nat) (feedURL : String)
    (n j : Nat) (url : String) (hj : j ≠ k) :
    getPosts (w.withoutEntry k feedURL n) rd j url = getPosts w rd j url := by
  unfold getPosts World.withoutEntry
  simp [hj]

/-! ## Lemmas: fan-out and fan-in -/

theorem flatten_set_perm :
    ∀ (pending : List (List Post)) (k : Nat) (post : Post) (rest : List Post),
      pending[k]? = some (post :: rest) →
      (post :: (pending.set k rest).flatten).Perm pending.flatten
  | [], k, post, rest, h => by simp at h
  | q :: qs, 0, post, rest, h => by
    simp only [List.getElem?_cons_zero, Option.some.injEq] at h
    subst h
    simp
  | q :: qs, k + 1, post, rest, h => by
    simp only [List.getElem?_cons_succ] at h
    have ih := flatten_set_perm qs k post rest h
    simp only [List.set_cons_succ, List.flatten_cons]
    exact (List.perm_middle.symm).trans (List.Perm.append_left q ih)

theorem collect_perm :
    ∀ (order : List Nat) (pending : List (List Post)),
      (collect order pending).Perm pending.flatten
  | [], pending => by simp [collect]
  | k :: order, pending => by
    rw [collect]
    split
    · rename_i post rest h
      exact (List.Perm.cons post (collect_perm order _)).trans
        (flatten_set_perm pending k post rest h)
    · exact collect_perm order pending

theorem fanOut_eq_map (w : World) (rd : Duration) :
    ∀ (feeds : List String) (k : Nat),
      fanOut w rd k feeds = (feeds.enumFrom k).map (fun e => getPosts w rd e.1 e.2)
  | [], k => rfl
  | feedURL :: rest, k => by
    rw [fanOut, List.enumFrom_cons, List.map_cons, fanOut_eq_map w rd rest (k + 1)]

theorem fanOut_congr (w w' : World) (rd : Duration) (feeds : List String)
    (h : ∀ k feedURL, feeds[k]? = some feedURL →
      getPosts w rd k feedURL = getPosts w' rd k feedURL) :
    fanOut w rd 0 feeds = fanOut w' rd 0 feeds := by
  rw [fanOut_eq_map, fanOut_eq_map]
  apply List.map_congr_left
  rintro ⟨k, feedURL⟩ hmem
  exact h k feedURL (List.mk_mem_enum_iff_getElem?.1 hmem)

theorem getAllPosts_eq_some (S : SliceSorter) (w : World) (rd : Duration) (feeds : List String)
    (h : ∀ e ∈ fanOut w rd 0 feeds, e.panicked = false) :
    getAllPosts S w rd feeds =
      some (sortPosts S (collect w.arrival ((fanOut w rd 0 feeds).map (fun e => e.sent)))) := by
  unfold getAllPosts
  have hany : (fanOut w rd 0 feeds).any (fun e => e.panicked) = false := by
    rw [List.any_eq_false]
    intro e he
    simp [h e he]
  simp [hany]

/-! ## Lemmas: the runs in which the sort comes after every append -/

theorem countP_set_of_lookup {α : Type} (p : α → Bool) :
    ∀ (l : List α) (k : Nat) (a b : α), l[k]? = some a →
      (l.set k b).countP p + (if p a = true then 1 else 0) =
        l.countP p + (if p b = true then 1 else 0)
  | [], k, a, b, h => by simp at h
  | x :: l, 0, a, b, h => by
    simp only [List.getElem?_cons_zero, Option.some.injEq] at h
    subst h
    simp only [List.set_cons_zero, List.countP_cons]
    omega
  | x :: l, k + 1, a, b, h => by
    simp only [List.getElem?_cons_succ] at h
    have ih := countP_set_of_lookup p l k a b h
    simp only [List.set_cons_succ, List.countP_cons]
    omega

theorem set_of_lookup {α : Type} :
    ∀ (l : List α) (k : Nat) (a : α), l[k]? = some a → l.set k a = l
  | [], k, a, h => by simp at h
  | x :: l, 0, a, h => by
    simp only [List.getElem?_cons_zero, Option.some.injEq] at h
    subst h
    rfl
  | x :: l, k + 1, a, h => by
    simp only [List.getElem?_cons_succ] at h
    simp only [List.set_cons_succ, set_of_lookup l k a h]

theorem step_coherent (S : SliceSorter) (pending : List (List Post)) (s s' : Sys) (e : Event)
    (h : step S s e = some s') (hc : Coherent pending s) : Coherent pending s' := by
  obtain ⟨hwg, hwait, hpre⟩ := hc
  unfold step at h
  split at h
  · exact absurd h (by simp)
  · cases e with
    | send k =>
      simp only at h
      split at h
      · rename_i post rest panics hk hcol hclosed
        simp only [Option.some.injEq] at h
        subst h
        refine ⟨?_, hwait, fun hcaller => ?_⟩
        · have := countP_set_of_lookup Fetcher.isRunning s.fetchers k _
            (Fetcher.running rest panics) hk
          simp only [Fetcher.isRunning] at this
          simp only
          omega
        · obtain ⟨order, horder⟩ := hpre hcaller
          refine ⟨order ++ [k], fun later => ?_⟩
          have hM : (s.fetchers.map Fetcher.toSend)[k]? = some (post :: rest) := by
            rw [List.getElem?_map, hk]
            rfl
          have h1 := horder (k :: later)
          rw [collect] at h1
          simp only [hM] at h1
          simp only [List.append_assoc, List.singleton_append, List.map_set, Fetcher.toSend,
            Collector.held]
          rw [h1, hcol]
          simp [Collector.held]
      · exact absurd h (by simp)
    | leave k =>
      simp only at h
      split at h
      · rename_i panics hk
        simp only [Option.some.injEq] at h
        subst h
        refine ⟨?_, ?_, fun hcaller => ?_⟩
        · have := countP_set_of_lookup Fetcher.isRunning s.fetchers k _
            (if panics = true then Fetcher.dying else Fetcher.done) hk
          have hnot : Fetcher.isRunning (if panics = true then Fetcher.dying else Fetcher.done) =
              false := by
            cases panics <;> rfl
          rw [hnot] at this
          simp only [Fetcher.isRunning, if_true, Bool.false_eq_true, if_false] at this
          simp only
          omega
        · intro hcaller
          have := hwait hcaller
          simp only
          omega
        · obtain ⟨order, horder⟩ := hpre hcaller
          refine ⟨order, fun later => ?_⟩
          have hM : (s.fetchers.map Fetcher.toSend)[k]? = some [] := by
            rw [List.getElem?_map, hk]
            rfl
          have hto : Fetcher.toSend (if panics = true then Fetcher.dying else Fetcher.done) =
              [] := by
            cases panics <;> rfl
          simp only [List.map_set, hto, set_of_lookup _ k [] hM]
          exact horder later
      · exact absurd h (by simp)
    | crash k =>
      simp only at h
      split at h
      · simp only [Option.some.injEq] at h
        subst h
        exact ⟨hwg, hwait, hpre⟩
      · exact absurd h (by simp)
    | append =>
      simp only at h
      split at h
      · rename_i post hcol
        simp only [Option.some.injEq] at h
        subst h
        refine ⟨hwg, hwait, fun hcaller => ?_⟩
        obtain ⟨order, horder⟩ := hpre hcaller
        refine ⟨order, fun later => ?_⟩
        rw [horder later, hcol]
        simp [Collector.held]
      · exact absurd h (by simp)
    | stop =>
      simp only at h
      split at h
      · rename_i hcol hclosed
        simp only [Option.some.injEq] at h
        subst h
        refine ⟨hwg, hwait, fun hcaller => ?_⟩
        obtain ⟨order, horder⟩ := hpre hcaller
        refine ⟨order, fun later => ?_⟩
        rw [horder later, hcol]
        simp [Collector.held]
      · exact absurd h (by simp)
    | wake =>
      simp only at h
      split at h
      · split at h
        · rename_i hcaller hzero
          simp only [Option.some.injEq] at h
          subst h
          exact ⟨hwg, fun _ => hzero, fun _ => hpre (Or.inl hcaller)⟩
        · exact absurd h (by simp)
      · exact absurd h (by simp)
    | close =>
      simp only at h
      split at h
      · rename_i hcaller
        simp only [Option.some.injEq] at h
        subst h
        exact ⟨hwg, fun _ => hwait (by rw [hcaller]; simp),
          fun _ => hpre (Or.inr (Or.inl hcaller))⟩
      · exact absurd h (by simp)
    | sort =>
      simp only at h
      split at h
      · rename_i hcaller
        simp only [Option.some.injEq] at h
        subst h
        refine ⟨hwg, fun _ => hwait (by rw [hcaller]; simp), fun hc' => ?_⟩
        simp at hc'
      · exact absurd h (by simp)
    | ret =>
      simp only at h
      split at h
      · rename_i hcaller
        simp only [Option.some.injEq] at h
        subst h
        refine ⟨hwg, fun _ => hwait (by rw [hcaller]; simp), fun hc' => ?_⟩
        simp at hc'
      · exact absurd h (by simp)

theorem run_coherent (S : SliceSorter) (pending : List (List Post)) :
    ∀ (events : List Event) (s s' : Sys), run S s events = some s' →
      Coherent pending s → Coherent pending s'
  | [], s, s', h, hc => by
    simp only [run, Option.some.injEq] at h
    exact h ▸ hc
  | e :: events, s, s', h, hc => by
    rw [run] at h
    split at h
    · rename_i s₁ hstep
      exact run_coherent S pending events s₁ s' h (step_coherent S pending s s₁ e hstep hc)
    · exact absurd h (by simp)

theorem start_coherent (emissions : List Emission) :
    Coherent (emissions.map (fun e => e.sent)) (start emissions) := by
  refine ⟨?_, fun h => absurd rfl h, fun _ => ⟨[], ?_⟩⟩
  · show emissions.length =
      (emissions.map (fun e => Fetcher.running e.sent e.panicked)).countP Fetcher.isRunning
    rw [List.countP_map]
    symm
    rw [List.countP_eq_length]
    intro e _
    rfl
  · intro later
    show collect ([] ++ later) _ = ([] ++ []) ++
      collect later ((emissions.map (fun e => Fetcher.running e.sent e.panicked)).map
        Fetcher.toSend)
    rw [List.map_map]
    rfl

/-- The runs behind the barrier: from the start state of the goroutines, in
every run that reaches the sort while the collector holds no post it has yet
to append, the caller sorts a collection that is a collection order of
everything the fetchers send; the sort and the return that follow give back
that sorted collection, which is the value of the function `getAllPosts` for
that arrival order. -/
theorem run_sort_after_appends (S : SliceSorter) (w : World) (rd : Duration)
    (feeds : List String) (events : List Event) (s : Sys)
    (hpanic : ∀ e ∈ fanOut w rd 0 feeds, e.panicked = false)
    (hrun : run S (start (fanOut w rd 0 feeds)) events = some s)
    (hcaller : s.caller = Caller.sorting)
    (hheld : s.collector.held = [])
    (hcrashed : s.crashed = false) :
    run S s [Event.sort, Event.ret] =
        some { s with posts := sortPosts S s.posts,
                      caller := Caller.returned (sortPosts S s.posts) } ∧
      ∃ arrival,
        getAllPosts S { w with arrival := arrival } rd feeds = some (sortPosts S s.posts) := by
  refine ⟨by simp [run, step, hcrashed, hcaller], ?_⟩
  obtain ⟨hwg, hwait, hpre⟩ :=
    run_coherent S _ events _ s hrun (start_coherent (fanOut w rd 0 feeds))
  obtain ⟨order, horder⟩ := hpre (Or.inr (Or.inr hcaller))
  have hzero : s.fetchers.countP Fetcher.isRunning = 0 := by
    rw [← hwg]
    exact hwait (by rw [hcaller]; simp)
  have hflat : (s.fetchers.map Fetcher.toSend).flatten = [] := by
    rw [List.flatten_eq_nil_iff]
    intro l hl
    rw [List.mem_map] at hl
    obtain ⟨f, hf, rfl⟩ := hl
    have hnot := (List.countP_eq_zero.1 hzero) f hf
    cases f with
    | running posts panics => simp [Fetcher.isRunning] at hnot
    | dying => rfl
    | done => rfl
  have hcollect : collect order ((fanOut w rd 0 feeds).map (fun e => e.sent)) = s.posts := by
    have := horder []
    rw [List.append_nil, hheld, List.append_nil, collect, hflat, List.append_nil] at this
    exact this
  refine ⟨order, ?_⟩
  have hfan : fanOut { w with arrival := order } rd 0 feeds = fanOut w rd 0 feeds :=
    fanOut_congr _ _ rd feeds (fun _ _ _ => rfl)
  rw [getAllPosts_eq_some S _ rd feeds (by rw [hfan]; exact hpanic), hfan]
  show some (sortPosts S (collect order _)) = _
  rw [hcollect]

/-- A run of one fetcher with one post in which the append comes before the
sort: the caller returns the one post. -/
theorem run_sort_after_appends_witness :
    run insertionSorter
        (start (fanOut (sampleWorld [Except.ok { Items := [entryA] }] []) relevantDuration 0
          ["https://a.test/feed"]))
        [Event.send 0, Event.append, Event.leave 0, Event.wake, Event.close, Event.sort,
          Event.ret] =
      some { fetchers := [Fetcher.done], wg := 0, posts := [postA], closed := true,
             collector := Collector.receiving, caller := Caller.returned [postA],
             crashed := false } ∧
      ∃ arrival,
        getAllPosts insertionSorter
          { sampleWorld [Except.ok { Items := [entryA] }] [] with arrival := arrival }
          relevantDuration ["https://a.test/feed"] = some (sortPosts insertionSorter [postA]) :=
  ⟨by decide,
   (run_sort_after_appends insertionSorter (sampleWorld [Except.ok { Items := [entryA] }] [])
    relevantDuration ["https://a.test/feed"]
    [Event.send 0, Event.append, Event.leave 0, Event.wake, Event.close]
    { fetchers := [Fetcher.done], wg := 0, posts := [postA], closed := true,
      collector := Collector.receiving, caller := Caller.sorting, crashed := false }
    (by decide) (by decide) rfl rfl rfl).2⟩

/-! ## Lemmas: what the runs behind the barrier return -/

theorem sortPosts_nil (S : SliceSorter) : sortPosts S [] = [] :=
  List.Perm.eq_nil (sortPosts_perm S [])

/-- In the sorted list no post is published after the post right before it. -/
theorem sortPosts_adjacent (S : SliceSorter) (collected : List Post) (i : Nat) (p q : Post)
    (hp : (sortPosts S collected)[i]? = some p) (hq : (sortPosts S collected)[i + 1]? = some q) :
    q.Published.After p.Published = false :=
  pairwise_adjacent _ (sortPosts_pairwise S collected) i p q hp hq

/-- Behind the barrier, with well-formed entries and a relevantDuration whose
negation does not wrap, the result is a rearrangement of the aggregate the
specification expects. -/
theorem getAllPosts_perm_specAggregate (S : SliceSorter) (w : World) (rd : Duration)
    (hneg : negDuration rd = -rd) (feeds : List String)
    (hwf : ∀ k feedURL feed, feeds[k]? = some feedURL →
      w.ParseURLWithContext k feedURL = Except.ok feed →
      ∀ item ∈ feed.Items, WellFormed w.Parse item) :
    ∃ posts, getAllPosts S w rd feeds = some posts ∧
      posts.Perm (specAggregate w rd feeds) := by
  have hfan : fanOut w rd 0 feeds =
      feeds.enum.map (fun e => { sent := specFetch w rd e, panicked := false }) := by
    rw [fanOut_eq_map]
    apply List.map_congr_left
    rintro ⟨k, feedURL⟩ hmem
    exact getPosts_wellFormed w rd hneg k feedURL
      (fun feed hfeed => hwf k feedURL feed (List.mk_mem_enum_iff_getElem?.1 hmem) hfeed)
  have hpan : ∀ e ∈ fanOut w rd 0 feeds, e.panicked = false := by
    intro e he
    rw [hfan, List.mem_map] at he
    obtain ⟨x, _, rfl⟩ := he
    rfl
  refine ⟨_, getAllPosts_eq_some S w rd feeds hpan, ?_⟩
  have hsent : (fanOut w rd 0 feeds).map (fun e => e.sent) = feeds.enum.map (specFetch w rd) := by
    rw [hfan, List.map_map]
    rfl
  rw [hsent]
  exact (sortPosts_perm S _).trans (collect_perm w.arrival _)

/-! ## Lemmas: the runs in which nothing is sent -/

theorem lookup_append_length {α : Type} (a : α) (l : List α) :
    ∀ (front : List α), (front ++ a :: l)[front.length]? = some a
  | [] => by simp
  | x :: front => by
    simpa using lookup_append_length a l front

theorem set_append_length {α : Type} (a b : α) (l : List α) :
    ∀ (front : List α), (front ++ a :: l).set front.length b = front ++ b :: l
  | [] => rfl
  | x :: front => by
    simp [set_append_length a b l front]

theorem map_eq_replicate {α β : Type} (f : α → β) (c : α) :
    ∀ (l : List α), (∀ a ∈ l, a = c) → l.map f = List.replicate l.length (f c)
  | [], _ => rfl
  | a :: l, h => by
    rw [List.map_cons, List.length_cons, List.replicate_succ, h a (List.mem_cons_self _ _),
      map_eq_replicate f c l (fun x hx => h x (List.mem_cons_of_mem _ hx))]

theorem step_quiet (S : SliceSorter) (s s' : Sys) (e : Event)
    (h : step S s e = some s') (hq : Quiet s) : Quiet s' := by
  obtain ⟨hposts, hheld, hsend, hret⟩ := hq
  unfold step at h
  split at h
  · exact absurd h (by simp)
  · cases e with
    | send k =>
      simp only at h
      split at h
      · rename_i post rest panics hk hcol hclosed
        have := hsend _ (List.getElem?_mem hk)
        simp [Fetcher.toSend] at this
      · exact absurd h (by simp)
    | leave k =>
      simp only at h
      split at h
      · rename_i panics hk
        simp only [Option.some.injEq] at h
        subst h
        refine ⟨hposts, hheld, ?_, hret⟩
        intro f hf
        rcases List.mem_or_eq_of_mem_set hf with hf | hf
        · exact hsend f hf
        · subst hf
          cases panics <;> rfl
      · exact absurd h (by simp)
    | crash k =>
      simp only at h
      split at h
      · simp only [Option.some.injEq] at h
        subst h
        exact ⟨hposts, hheld, hsend, hret⟩
      · exact absurd h (by simp)
    | append =>
      simp only at h
      split at h
      · rename_i post hcol
        rw [hcol] at hheld
        simp [Collector.held] at hheld
      · exact absurd h (by simp)
    | stop =>
      simp only at h
      split at h
      · simp only [Option.some.injEq] at h
        subst h
        exact ⟨hposts, rfl, hsend, hret⟩
      · exact absurd h (by simp)
    | wake =>
      simp only at h
      split at h
      · split at h
        · simp only [Option.some.injEq] at h
          subst h
          exact ⟨hposts, hheld, hsend, fun result hr => by simp at hr⟩
        · exact absurd h (by simp)
      · exact absurd h (by simp)
    | close =>
      simp only at h
      split at h
      · simp only [Option.some.injEq] at h
        subst h
        exact ⟨hposts, hheld, hsend, fun result hr => by simp at hr⟩
      · exact absurd h (by simp)
    | sort =>
      simp only at h
      split at h
      · simp only [Option.some.injEq] at h
        subst h
        refine ⟨?_, hheld, hsend, fun result hr => by simp at hr⟩
        show sortPosts S s.posts = []
        rw [hposts, sortPosts_nil]
      · exact absurd h (by simp)
    | ret =>
      simp only at h
      split at h
      · simp only [Option.some.injEq] at h
        subst h
        refine ⟨hposts, hheld, hsend, fun result hr => ?_⟩
        simp only [Caller.returned.injEq] at hr
        rw [← hr, hposts]
      · exact absurd h (by simp)

theorem run_quiet (S : SliceSorter) :
    ∀ (events : List Event) (s s' : Sys), run S s events = some s' → Quiet s → Quiet s'
  | [], s, s', h, hq => by
    simp only [run, Option.some.injEq] at h
    exact h ▸ hq
  | e :: events, s, s', h, hq => by
    rw [run] at h
    split at h
    · rename_i s₁ hstep
      exact run_quiet S events s₁ s' h (step_quiet S s s₁ e hstep hq)
    · exact absurd h (by simp)

theorem quiet_run_returns (S : SliceSorter) :
    ∀ (m : Nat) (front : List Fetcher) (s : Sys), s.crashed = false →
      s.fetchers = front ++ List.replicate m (Fetcher.running [] false) → s.wg = m →
      s.caller = Caller.waiting → s.posts = [] →
      ∃ events s', run S s events = some s' ∧ s'.caller = Caller.returned []
  | 0, front, s, hcr, _, hwg, hcaller, hposts => by
    refine ⟨[Event.wake, Event.close, Event.sort, Event.ret],
      { s with closed := true, posts := [], caller := Caller.returned [] }, ?_, rfl⟩
    simp [run, step, hcr, hwg, hcaller, hposts, sortPosts_nil]
  | m + 1, front, s, hcr, hf, hwg, hcaller, hposts => by
    have hk : s.fetchers[front.length]? = some (Fetcher.running [] false) := by
      rw [hf, List.replicate_succ]
      exact lookup_append_length _ _ front
    have hstep : step S s (Event.leave front.length) =
        some { s with fetchers := s.fetchers.set front.length Fetcher.done, wg := s.wg - 1 } := by
      simp [step, hcr, hk]
    obtain ⟨events, s', hrun, hs'⟩ := quiet_run_returns S m (front ++ [Fetcher.done])
      { s with fetchers := s.fetchers.set front.length Fetcher.done, wg := s.wg - 1 } hcr
      (by
        show s.fetchers.set front.length Fetcher.done = _
        rw [hf, List.replicate_succ, set_append_length]
        simp)
      (by show s.wg - 1 = m; omega) hcaller hposts
    exact ⟨Event.leave front.length :: events, s', by rw [run, hstep]; exact hrun, hs'⟩

/-! ## The claims -/

/-- C1, the code at the failing run: endpoint A has one entry published now,
endpoint B one entry published an hour earlier. B's post is appended, A's post
is received, both fetchers leave, `wg.Wait()` returns, the channel is closed
and `sort.Slice` sorts the one post that `posts` holds; then the collector
appends A's post and `return posts` reads the variable again: getAllPosts
returns B's post before A's post, the older one first. -/
theorem getAllPosts_returns_oldest_first :
    fanOut (sampleWorld [Except.ok { Items := [entryA] }, Except.ok { Items := [entryB] }] [])
        relevantDuration 0 ["https://a.test/feed", "https://b.test/feed"] =
        [{ sent := [postA], panicked := false }, { sent := [postB], panicked := false }] ∧
      run insertionSorter
          (start [{ sent := [postA], panicked := false }, { sent := [postB], panicked := false }])
          [Event.send 1, Event.append, Event.send 0, Event.leave 0, Event.leave 1, Event.wake,
            Event.close, Event.sort, Event.append, Event.ret] =
        some { fetchers := [Fetcher.done, Fetcher.done], wg := 0, posts := [postB, postA],
               closed := true, collector := Collector.receiving,
               caller := Caller.returned [postB, postA], crashed := false } ∧
      [postB, postA][0]? = some postB ∧ [postB, postA][0 + 1]? = some postA ∧
      postA.Published.After postB.Published = true := by
  decide

/-- C2 as stated fails where `-relevantDuration` wraps around: with
relevantDuration the least int64, an entry published at the reading of the
clock is strictly before the reading minus relevantDuration, and getPosts
sends it. -/
theorem getPosts_sends_old_entry_at_least_duration :
    resolvePublished entryA = some (instant 100 0) ∧
      (instant 100 0).nsec < (instant 100 0).nsec - (-9223372036854775808) ∧
      processItem sampleParse (-9223372036854775808) (instant 100 0) entryA =
        ItemResult.sent postA ∧
      getPosts (sampleWorld [Except.ok { Items := [entryA] }] []) (-9223372036854775808) 0
        "https://a.test/feed" = { sent := [postA], panicked := false } := by
  decide

/-- C2, amended: for every relevantDuration above the least int64 (so that
`-relevantDuration` does not wrap around) and every reading of the clock, an
entry whose resolved published timestamp is strictly before the reading minus
relevantDuration is passed over by getPosts: the loop body takes its
`continue`, getPosts sends what it sends when the feed does not hold the
entry at all, and so every run of getAllPosts, step by step, is the run it is
without the entry. -/
theorem getPosts_drops_old_entry (S : SliceSorter) (w : World) (rd : Duration)
    (feeds : List String) (k : Nat) (feedURL : String) (feed : Feed) (n : Nat) (item : Item)
    (published : Time)
    (hmin : -9223372036854775808 < rd)
    (hmax : rd < 9223372036854775808)
    (hk : feeds[k]? = some feedURL)
    (hfeed : w.ParseURLWithContext k feedURL = Except.ok feed)
    (hitem : feed.Items[n]? = some item)
    (hres : resolvePublished item = some published)
    (hold : published.nsec < (w.Now k n).nsec - rd) :
    processItem w.Parse rd (w.Now k n) item = ItemResult.skipped ∧
      getPosts w rd k feedURL = getPosts (w.withoutEntry k feedURL n) rd k feedURL ∧
      ∀ events, run S (start (fanOut w rd 0 feeds)) events =
        run S (start (fanOut (w.withoutEntry k feedURL n) rd 0 feeds)) events := by
  have hskip : processItem w.Parse rd (w.Now k n) item = ItemResult.skipped := by
    have hb : published.Before ((w.Now k n).Add (negDuration rd)) = true := by
      rw [negDuration_eq rd hmin hmax]
      simp only [Time.Before, Time.Add, decide_eq_true_eq]
      linarith
    simp [processItem, hres, hb]
  have hget : getPosts w rd k feedURL = getPosts (w.withoutEntry k feedURL n) rd k feedURL := by
    have h := processItems_eraseIdx w.Parse rd feed.Items n (w.Now k) item hitem hskip
    unfold getPosts World.withoutEntry
    simp [hfeed, h]
  refine ⟨hskip, hget, ?_⟩
  have hfan : fanOut w rd 0 feeds = fanOut (w.withoutEntry k feedURL n) rd 0 feeds := by
    apply fanOut_congr
    intro j url hj
    by_cases hjk : j = k
    · subst hjk
      rw [hk] at hj
      cases hj
      exact hget
    · exact (getPosts_withoutEntry_other w rd k feedURL n j url hjk).symm
  intro events
  rw [hfan]

/-- The scenario of C2: with relevantDuration of 60 days an entry published 61
days before the reading of the clock is passed over, and the fetcher sends
the one recent post of the feed. -/
theorem getPosts_drops_old_entry_witness :
    (instant 39 0).nsec < (instant 100 0).nsec - relevantDuration ∧
      fanOut (sampleWorld [Except.ok { Items := [entryOld, entryA] }] []) relevantDuration 0
        ["https://a.test/feed"] = [{ sent := [postA], panicked := false }] ∧
      (processItem sampleParse relevantDuration (instant 100 0) entryOld = ItemResult.skipped ∧
        getPosts (sampleWorld [Except.ok { Items := [entryOld, entryA] }] []) relevantDuration 0
            "https://a.test/feed" =
          getPosts ((sampleWorld [Except.ok { Items := [entryOld, entryA] }] []).withoutEntry 0
            "https://a.test/feed" 0) relevantDuration 0 "https://a.test/feed" ∧
        ∀ events,
          run insertionSorter
              (start (fanOut (sampleWorld [Except.ok { Items := [entryOld, entryA] }] [])
                relevantDuration 0 ["https://a.test/feed"])) events =
            run insertionSorter
              (start (fanOut
                ((sampleWorld [Except.ok { Items := [entryOld, entryA] }] []).withoutEntry 0
                  "https://a.test/feed" 0) relevantDuration 0 ["https://a.test/feed"])) events) :=
  ⟨by decide, by decide,
   getPosts_drops_old_entry insertionSorter
     (sampleWorld [Except.ok { Items := [entryOld, entryA] }] []) relevantDuration
     ["https://a.test/feed"] 0 "https://a.test/feed" { Items := [entryOld, entryA] } 0 entryOld
     (instant 39 0) (by decide) (by decide) rfl rfl rfl rfl (by decide)⟩

/-- C3, the code at the failing input: the feed holds an entry without
timestamps followed by a recent, valid entry. The loop body panics at the
first entry (`published.Before` is called through a nil pointer), so
getPosts sends nothing, the sibling that getPosts sends when it stands alone
is never handled, and getAllPosts does not return. -/
theorem getPosts_undated_entry_panics :
    processItem sampleParse relevantDuration (instant 100 0) entryUndated = ItemResult.panicked ∧
      getPosts (sampleWorld [Except.ok { Items := [entryUndated, entryB] }] []) relevantDuration 0
        "https://b.test/feed" = { sent := [], panicked := true } ∧
      getPosts (sampleWorld [Except.ok { Items := [entryB] }] []) relevantDuration 0
        "https://b.test/feed" = { sent := [postB], panicked := false } ∧
      getAllPosts insertionSorter (sampleWorld [Except.ok { Items := [entryUndated, entryB] }] [])
        relevantDuration ["https://b.test/feed"] = none := by
  decide

/-- C4, the code at the failing input: the feed holds a recent entry whose
link does not parse, followed by a recent, valid entry. After logging the
error the loop body reads `parsedLink.Host` through a nil pointer and panics,
so getPosts sends nothing, the sibling that getPosts sends when it stands
alone is never handled, and getAllPosts does not return. -/
theorem getPosts_bad_link_panics :
    processItem sampleParse relevantDuration (instant 100 0) entryBadLink = ItemResult.panicked ∧
      getPosts (sampleWorld [Except.ok { Items := [entryBadLink, entryB] }] []) relevantDuration 0
        "https://b.test/feed" = { sent := [], panicked := true } ∧
      getPosts (sampleWorld [Except.ok { Items := [entryB] }] []) relevantDuration 0
        "https://b.test/feed" = { sent := [postB], panicked := false } ∧
      getAllPosts insertionSorter (sampleWorld [Except.ok { Items := [entryBadLink, entryB] }] [])
        relevantDuration ["https://b.test/feed"] = none := by
  decide

/-- C5: if the retrieval of every endpoint fails, getAllPosts returns the
empty sequence: it returns, and no fetcher has panicked. This holds of every
run of the goroutines as well: nothing is ever appended, whatever a run
returns is the empty sequence, and there is a run that returns. -/
theorem getAllPosts_all_fail (S : SliceSorter) (w : World) (rd : Duration)
    (feeds : List String)
    (hfail : ∀ k feedURL, feeds[k]? = some feedURL →
      ∃ e, w.ParseURLWithContext k feedURL = Except.error e) :
    getAllPosts S w rd feeds = some [] ∧
      (∀ events s, run S (start (fanOut w rd 0 feeds)) events = some s →
        s.posts = [] ∧ ∀ result, s.caller = Caller.returned result → result = []) ∧
      ∃ events s, run S (start (fanOut w rd 0 feeds)) events = some s ∧
        s.caller = Caller.returned [] := by
  have hall : ∀ e ∈ fanOut w rd 0 feeds, e = { sent := [], panicked := false } := by
    intro e he
    rw [fanOut_eq_map, List.mem_map] at he
    obtain ⟨⟨k, feedURL⟩, hmem, rfl⟩ := he
    obtain ⟨msg, hmsg⟩ := hfail k feedURL (List.mk_mem_enum_iff_getElem?.1 hmem)
    simp [getPosts, hmsg]
  have hfetchers : (start (fanOut w rd 0 feeds)).fetchers =
      [] ++ List.replicate (fanOut w rd 0 feeds).length (Fetcher.running [] false) :=
    map_eq_replicate (fun e : Emission => Fetcher.running e.sent e.panicked)
      { sent := [], panicked := false } (fanOut w rd 0 feeds) hall
  refine ⟨?_, ?_, ?_⟩
  · rw [getAllPosts_eq_some S w rd feeds (fun e he => by rw [hall e he])]
    have hflat : ((fanOut w rd 0 feeds).map (fun e => e.sent)).flatten = [] := by
      rw [List.flatten_eq_nil_iff]
      intro l hl
      rw [List.mem_map] at hl
      obtain ⟨e, he, rfl⟩ := hl
      rw [hall e he]
    have hcol := collect_perm w.arrival ((fanOut w rd 0 feeds).map (fun e => e.sent))
    rw [hflat] at hcol
    have hsort :=
      sortPosts_perm S (collect w.arrival ((fanOut w rd 0 feeds).map (fun e => e.sent)))
    rw [List.Perm.eq_nil hcol] at hsort ⊢
    rw [List.Perm.eq_nil hsort]
  · intro events s hrun
    have hquiet : Quiet (start (fanOut w rd 0 feeds)) := by
      refine ⟨rfl, rfl, ?_, fun result hr => by simp [start] at hr⟩
      intro f hf
      rw [hfetchers] at hf
      simp only [List.nil_append] at hf
      rw [List.eq_of_mem_replicate hf]
      rfl
    obtain ⟨hposts, _, _, hret⟩ := run_quiet S events _ s hrun hquiet
    exact ⟨hposts, hret⟩
  · exact quiet_run_returns S _ [] (start (fanOut w rd 0 feeds)) rfl hfetchers rfl rfl rfl

/-- Two endpoints, both failing: the aggregate is empty. -/
theorem getAllPosts_all_fail_witness :
    (∀ k feedURL, ["https://a.test/feed", "https://b.test/feed"][k]? = some feedURL →
        ∃ e, (sampleWorld [Except.error "no such host"] []).ParseURLWithContext k feedURL =
          Except.error e) ∧
      run insertionSorter
          (start (fanOut (sampleWorld [Except.error "no such host"] []) relevantDuration 0
            ["https://a.test/feed", "https://b.test/feed"]))
          [Event.leave 1, Event.leave 0, Event.wake, Event.close, Event.sort, Event.ret] =
        some { fetchers := [Fetcher.done, Fetcher.done], wg := 0, posts := [], closed := true,
               collector := Collector.receiving, caller := Caller.returned [],
               crashed := false } ∧
      getAllPosts insertionSorter (sampleWorld [Except.error "no such host"] []) relevantDuration
        ["https://a.test/feed", "https://b.test/feed"] = some [] :=
  have hfail : ∀ k feedURL, ["https://a.test/feed", "https://b.test/feed"][k]? = some feedURL →
      ∃ e, (sampleWorld [Except.error "no such host"] []).ParseURLWithContext k feedURL =
        Except.error e := by
    intro k feedURL _
    match k with
    | 0 => exact ⟨_, rfl⟩
    | k + 1 => exact ⟨_, rfl⟩
  ⟨hfail, by decide, (getAllPosts_all_fail insertionSorter _ relevantDuration _ hfail).1⟩

/-- C6, the code at the failing run: endpoint A runs into the deadline and
endpoint B returns two valid entries, the first exactly at the cutoff. The
specification expects B's two posts. In the run in which B's second post is
received but not yet appended when the caller sorts and returns, getAllPosts
returns one post, which is no rearrangement of the two. In the same way two
endpoints that list the same entry can yield one post instead of two. -/
theorem getAllPosts_loses_post :
    fanOut (sampleWorld [Except.error "context deadline exceeded",
          Except.ok { Items := [entryB3, entryB] }] [])
        relevantDuration 0 ["https://a.test/feed", "https://b.test/feed"] =
        [{ sent := [], panicked := false }, { sent := [postB3, postB], panicked := false }] ∧
      specAggregate (sampleWorld [Except.error "context deadline exceeded",
          Except.ok { Items := [entryB3, entryB] }] [])
        relevantDuration ["https://a.test/feed", "https://b.test/feed"] = [postB3, postB] ∧
      run insertionSorter
          (start [{ sent := [], panicked := false },
            { sent := [postB3, postB], panicked := false }])
          [Event.leave 0, Event.send 1, Event.append, Event.send 1, Event.leave 1, Event.wake,
            Event.close, Event.sort, Event.ret] =
        some { fetchers := [Fetcher.done, Fetcher.done], wg := 0, posts := [postB3],
               closed := true, collector := Collector.appending postB,
               caller := Caller.returned [postB3], crashed := false } ∧
      ¬ [postB3].Perm [postB3, postB] ∧
      fanOut (sampleWorld [Except.ok { Items := [entryA] }, Except.ok { Items := [entryA] }] [])
        relevantDuration 0 ["https://a.test/feed", "https://mirror.test/feed"] =
        [{ sent := [postA], panicked := false }, { sent := [postA], panicked := false }] ∧
      run insertionSorter
          (start [{ sent := [postA], panicked := false }, { sent := [postA], panicked := false }])
          [Event.send 0, Event.append, Event.send 1, Event.leave 0, Event.leave 1, Event.wake,
            Event.close, Event.sort, Event.ret] =
        some { fetchers := [Fetcher.done, Fetcher.done], wg := 0, posts := [postA],
               closed := true, collector := Collector.appending postA,
               caller := Caller.returned [postA], crashed := false } := by
  refine ⟨by decide, by decide, by decide, ?_, by decide, by decide⟩
  intro h
  exact absurd h.length_eq (by decide)

/-- C7: for every post sent by getPosts, the Link parses as a URL and Host is
the host of that URL, and the Link is the link of an entry of the retrieved
feed, unchanged. -/
theorem getPosts_host_of_link (w : World) (rd : Duration) (k : Nat) (feedURL : String)
    (post : Post) (h : post ∈ (getPosts w rd k feedURL).sent) :
    (∃ u, w.Parse post.Link = Except.ok u ∧ post.Host = u.Host) ∧
      ∃ feed item, w.ParseURLWithContext k feedURL = Except.ok feed ∧
        item ∈ feed.Items ∧ post.Link = item.Link := by
  unfold getPosts at h
  cases hfeed : w.ParseURLWithContext k feedURL with
  | error e => simp [hfeed] at h
  | ok feed =>
    simp only [hfeed] at h
    obtain ⟨n, item, hn, hs⟩ := processItems_mem_sent w.Parse rd feed.Items (w.Now k) post h
    obtain ⟨_, _, ⟨u, hu, hhost⟩, hlink, _⟩ := processItem_sent w.Parse rd _ item post hs
    exact ⟨⟨u, hlink ▸ hu, hhost⟩, feed, item, rfl, List.getElem?_mem hn, hlink⟩

/-- The example of C7: the entry with link `https://example.com/a/b` is sent with
Host `example.com`. -/
theorem getPosts_host_of_link_witness :
    (getPosts (sampleWorld [Except.ok { Items := [entryExample] }] []) relevantDuration 0
        "https://example.com/feed").sent = [postExample] ∧
      postExample.Host = "example.com" ∧
      ((∃ u, sampleParse postExample.Link = Except.ok u ∧ postExample.Host = u.Host) ∧
        ∃ feed item,
          (sampleWorld [Except.ok { Items := [entryExample] }] []).ParseURLWithContext 0
            "https://example.com/feed" = Except.ok feed ∧
          item ∈ feed.Items ∧ postExample.Link = item.Link) :=
  ⟨by decide, rfl,
   getPosts_host_of_link (sampleWorld [Except.ok { Items := [entryExample] }] [])
     relevantDuration 0 "https://example.com/feed" postExample (by decide)⟩

/-- C8: when getPosts sends a post for an entry (the entries before it having
been handled without a panic), the post stands in the emission at the place
of the entry, its Published is the entry's PublishedParsed when that is
present and the entry's UpdatedParsed only when PublishedParsed is absent,
and it is this value that the recency filter has compared with the cutoff. -/
theorem getPosts_published (w : World) (rd : Duration) (k : Nat) (feedURL : String)
    (before : List Item) (item : Item) (after : List Item) (post : Post)
    (hfeed : w.ParseURLWithContext k feedURL = Except.ok { Items := before ++ item :: after })
    (hbefore : (processItems w.Parse rd (w.Now k) before).panicked = false)
    (hsent : processItem w.Parse rd (w.Now k before.length) item = ItemResult.sent post) :
    (getPosts w rd k feedURL).sent =
        (processItems w.Parse rd (w.Now k) before).sent ++
          post :: (processItems w.Parse rd (fun i => w.Now k (i + (before.length + 1))) after).sent ∧
      (∀ t, item.PublishedParsed = some t → post.Published = t) ∧
      (item.PublishedParsed = none → item.UpdatedParsed = some post.Published) ∧
      post.Published.Before ((w.Now k before.length).Add (negDuration rd)) = false := by
  obtain ⟨hres, hfilter, _, _, _⟩ := processItem_sent w.Parse rd _ item post hsent
  refine ⟨?_, ?_, ?_, hfilter⟩
  · have hclock : (fun i => (fun j => w.Now k (j + before.length)) (i + 1)) =
        (fun i => w.Now k (i + (before.length + 1))) := by
      funext i
      show w.Now k (i + 1 + before.length) = w.Now k (i + (before.length + 1))
      congr 1
      omega
    have h0 : processItem w.Parse rd ((fun j => w.Now k (j + before.length)) 0) item =
        ItemResult.sent post := by
      show processItem w.Parse rd (w.Now k (0 + before.length)) item = _
      rw [Nat.zero_add, hsent]
    unfold getPosts
    simp only [hfeed]
    rw [processItems_append, processItems_cons, h0, hclock]
    simp [hbefore]
  · intro t ht
    unfold resolvePublished at hres
    rw [ht] at hres
    exact (Option.some.inj hres).symm
  · intro hnone
    unfold resolvePublished at hres
    rw [hnone] at hres
    exact hres

/-- An entry with both timestamps is sent with its publication timestamp, an
entry without a publication timestamp with its update timestamp. -/
theorem getPosts_published_witness :
    (getPosts (sampleWorld [Except.ok { Items := [entryB] ++ entryB3 :: [entryA] }] [])
        relevantDuration 0 "https://b.test/feed").sent = [postB] ++ postB3 :: [postA] ∧
      (∀ t, entryB3.PublishedParsed = some t → postB3.Published = t) ∧
      (entryB3.PublishedParsed = none → entryB3.UpdatedParsed = some postB3.Published) ∧
      postB3.Published.Before ((instant 100 0).Add (negDuration relevantDuration)) = false :=
  getPosts_published (sampleWorld [Except.ok { Items := [entryB] ++ entryB3 :: [entryA] }] [])
    relevantDuration 0 "https://b.test/feed" [entryB] entryB3 [entryA] postB3 rfl
    (by decide) (by decide)

/-- C9: the sorted result does not depend on the arrival order. For two
arrival orders of the same posts the sorting step yields the same sequence of
Published timestamps, and the same sequence of posts when the Published
timestamps are pairwise distinct. -/
theorem sortPosts_arrival_independent (S : SliceSorter) (arrival₁ arrival₂ : List Post)
    (h : arrival₁.Perm arrival₂) :
    (sortPosts S arrival₁).map (fun p => p.Published) =
        (sortPosts S arrival₂).map (fun p => p.Published) ∧
      ((arrival₁.map (fun p => p.Published)).Nodup →
        sortPosts S arrival₁ = sortPosts S arrival₂) := by
  have hperm : (sortPosts S arrival₁).Perm (sortPosts S arrival₂) :=
    ((sortPosts_perm S arrival₁).trans h).trans (sortPosts_perm S arrival₂).symm
  have hmap := sorted_published_unique _ _ hperm (sortPosts_pairwise S arrival₁)
    (sortPosts_pairwise S arrival₂)
  refine ⟨hmap, fun hnodup => ?_⟩
  apply eq_of_perm_of_map_eq (fun p => p.Published) _ _ hperm hmap
  exact (((sortPosts_perm S arrival₁).map _).nodup_iff).2 hnodup

/-- The two arrival orders of the posts of the two endpoints give one result. -/
theorem sortPosts_arrival_independent_witness :
    [postB, postA].Perm [postA, postB] ∧
      ((sortPosts insertionSorter [postB, postA]).map (fun p => p.Published) =
          (sortPosts insertionSorter [postA, postB]).map (fun p => p.Published) ∧
        (([postB, postA].map (fun p => p.Published)).Nodup →
          sortPosts insertionSorter [postB, postA] = sortPosts insertionSorter [postA, postB])) :=
  ⟨List.Perm.swap postA postB [],
   sortPosts_arrival_independent insertionSorter [postB, postA] [postA, postB]
     (List.Perm.swap postA postB [])⟩

/-- C10, the code at the failing run: one endpoint with one recent entry. The
fetcher's send is received, the fetcher leaves getPosts and calls
`wg.Done()`, `wg.Wait()` returns and the channel is closed while the collector
has not yet appended the post it received. In that state the caller's read
of `posts` and the collector's append are both ready to run, and when the
caller goes first getAllPosts returns the empty sequence although the post
was sent; the run in which the append comes first returns the post. -/
theorem getAllPosts_sorts_before_append :
    (fanOut (sampleWorld [Except.ok { Items := [entryA] }] []) relevantDuration 0
        ["https://a.test/feed"]) = [{ sent := [postA], panicked := false }] ∧
      run insertionSorter (start [{ sent := [postA], panicked := false }])
          [Event.send 0, Event.leave 0, Event.wake, Event.close] =
        some { fetchers := [Fetcher.done], wg := 0, posts := [], closed := true,
               collector := Collector.appending postA, caller := Caller.sorting,
               crashed := false } ∧
      run insertionSorter (start [{ sent := [postA], panicked := false }])
          [Event.send 0, Event.leave 0, Event.wake, Event.close, Event.sort, Event.ret] =
        some { fetchers := [Fetcher.done], wg := 0, posts := [], closed := true,
               collector := Collector.appending postA, caller := Caller.returned [],
               crashed := false } ∧
      run insertionSorter (start [{ sent := [postA], panicked := false }])
          [Event.send 0, Event.leave 0, Event.wake, Event.close, Event.append, Event.sort,
            Event.ret] =
        some { fetchers := [Fetcher.done], wg := 0, posts := [postA], closed := true,
               collector := Collector.receiving, caller := Caller.returned [postA],
               crashed := false } := by
  decide

end News
